import Mathlib

/-!
Verification of the `request` package of goldfish (`src/request/request.go`)
against its natural-language specification.

Shallow embedding conventions:
- A Go `map[string]interface{}` is an association list `Data` of string keys
  and `GoVal` values; `GoVal.str` is a string value, `GoVal.other n` is any
  non-string value (indexed by `n` so that distinct non-string values stay
  distinct).
- The external secrets service (the `vault` package is repository code that is
  not under `src/`; the spec gives only its interface in section 6) is an
  oracle passed as an argument: storage reads, wrap/unwrap, and the
  root-generation endpoints are parameters of each embedded function.
- Go's `(value, error)` returns become `Except String _` (error strings are
  those of the source); a nil-pointer dereference or a failed unchecked type
  assertion - a Go runtime panic - is modelled by an outer `Option` being
  `none`.
- `strings.ToLower`, `Char.isWhitespace` etc. are the ASCII approximations of
  their Unicode Go counterparts; all data the claims quantify over is ASCII.
-/

set_option autoImplicit false

namespace Goldfish

/-- A value stored in a Go `map[string]interface{}`: either a string or an
opaque non-string value. -/
inductive GoVal where
  | str (s : String)
  | other (n : Nat)
deriving DecidableEq, Repr

/-- A Go `map[string]interface{}`, as an association list (Go map keys are
unique; where that matters a `NodupKeys` hypothesis is used). -/
abbrev Data := List (String × GoVal)

/-- Keys of a record are pairwise distinct (true of every Go map). -/
def NodupKeys (d : Data) : Prop := (d.map Prod.fst).Nodup

instance (d : Data) : Decidable (NodupKeys d) :=
  inferInstanceAs (Decidable (d.map Prod.fst).Nodup)

/-- ASCII lowercase of one character. -/
def toLowerChar (c : Char) : Char :=
  if 'A' ≤ c ∧ c ≤ 'Z' then Char.ofNat (c.toNat + 32) else c

/-- The embedding of `strings.ToLower` (ASCII range; all type discriminators
involved are ASCII). -/
def lowerStr (s : String) : String := ⟨s.data.map toLowerChar⟩

/-- First-match lookup, the embedding of `data[key]` on a Go map. -/
def lookupVal (d : Data) (k : String) : Option GoVal :=
  match d with
  | [] => none
  | (k', v) :: rest => if k' = k then some v else lookupVal rest k

/-- The `Type` extraction shared by `Add`, `Get` and `Remove`
(request.go lines 28-31, 58-61, 101-104):
`t := ""; if raw, ok := data["Type"]; ok { t, ok = raw.(string) }`.
A missing key or a failed string assertion leaves `t = ""`. -/
def getTypeField (d : Data) : String :=
  match lookupVal d "Type" with
  | some (.str s) => s
  | _ => ""

/-- Result of `Add` (request.go lines 27-44): either an error (in which case
`Add` itself has performed no storage write and dispatched to no variant), or
dispatch to `PolicyRequest.Create` with the raw payload. -/
inductive AddOut where
  | err (msg : String)
  | createPolicy (raw : Data)
deriving DecidableEq

/-- Embedding of `Add` (request.go lines 27-44). The key `"Type"` is looked
up exactly; the type *value* is matched case-insensitively via `toLower`. -/
def Add (raw : Data) : AddOut :=
  let t := getTypeField raw
  if t = "" then .err "Type field is empty"
  else if lowerStr t = "policy" then .createPolicy raw
  else .err "Unsupported request type"

/-!
## The structural hasher and the policy variant

`PolicyRequest` (policy.go) and the structural hash (the `hashstructure`
library call at request.go lines 74 and 118) are not under `src/`.

Modelled from the spec: section 4.1 - "`computeHash(request) -> hex string`:
deterministic structural hash over all fields of the decoded variant,
independent of any field/iteration ordering. Guarantee: any field mutation
changes the output." - and section 9 - "implement via canonical (stable-order)
serialization fed into a deterministic hash function".

The decoded variant is modelled as the canonical (key-sorted) form of its
field map, and the hash as an injective encoding of that canonical form
rendered in hex.
-/

/-- Sort a list of keys (the canonical order of spec section 9). -/
def sortKeys (ks : List String) : List String :=
  ks.mergeSort (fun a b => a ≤ b)

/-- Modelled from the spec: the decoded variant (`PolicyRequest` after
`mapstructure.Decode`, policy.go not being under `src/`) is the canonical
key-sorted form of the record's field map. -/
def decodeData (d : Data) : Data :=
  (sortKeys (d.map Prod.fst).dedup).map (fun k =>
    (k, (lookupVal d k).getD (.other 0)))

/-- Injective encoding of a list given an injective encoding of elements. -/
def encodeList {α : Type} (f : α → Nat) : List α → Nat
  | [] => 0
  | a :: l => Nat.pair (f a) (encodeList f l) + 1

/-- Injective encoding of a string. -/
def encodeString (s : String) : Nat :=
  encodeList Char.toNat s.data

/-- Injective encoding of a `GoVal`. -/
def encodeGoVal : GoVal → Nat
  | .str s => Nat.pair 0 (encodeString s)
  | .other n => Nat.pair 1 n

/-- Injective encoding of one field (key-value pair). -/
def encodeEntry (p : String × GoVal) : Nat :=
  Nat.pair (encodeString p.1) (encodeGoVal p.2)

/-- Injective encoding of a field list. -/
def encodeData (d : Data) : Nat :=
  encodeList encodeEntry d

/-- Lowercase-hex rendering of a natural number (the embedding of
`strconv.FormatUint(h, 16)`). -/
def natToHex (n : Nat) : String :=
  ⟨((Nat.digits 16 n).reverse.map Nat.digitChar)⟩

/-- Modelled from the spec (section 4.1): the structural hash of a decoded
request, as a hex string; deterministic, order-independent (it consumes the
canonical form) and injective on canonical forms. -/
def computeHash (req : Data) : String :=
  natToHex (encodeData req)

/-- Embedding of `Get` (request.go lines 47-87), parametrised by the storage
read outcome (`vault.ReadFromCubbyhole("requests/" + hash)`: error, absent, or
a record) and by the variant's `Verify` (policy.go, outside `src/`; an oracle
returning `some e` for an error). `mapstructure.Decode` is modelled as the
total `decodeData` (spec-modelled; its failure path is not exercised by any
claim). -/
def Get (read : Except String (Option Data)) (verify : Data → Option String)
    (hash : String) : Except String Data :=
  match read with
  | .error e => .error e
  | .ok none => .error "Change ID not found"
  | .ok (some data) =>
    let t := getTypeField data
    if t = "" then .error "Invalid request type"
    else if lowerStr t = "policy" then
      let req := decodeData data
      if computeHash req ≠ hash then .error "Hashes do not match"
      else
        match verify req with
        | some e => .error e
        | none => .ok req
    else .error ("Invalid request type: " ++ t)

/-- `alterField d k v'` is `d` with the value at key `k` replaced by `v'`
(a record whose stored payload has the single field `k` altered). -/
def alterField (d : Data) (k : String) (v' : GoVal) : Data :=
  d.map (fun p => if p.1 = k then (k, v') else p)

/-!
## Root token generation (request.go lines 136-171)

The `vault` package wrappers are repository code outside `src/`.
Modelled from the spec (section 6): `initiateRegeneration(otp) ->
{nonce, encodedTokenSoFar}`, `submitShare(share, nonce) ->
{encodedTokenSoFar} | error`, `cancelRegeneration() -> ok|error`. A call that
fails yields no status value: in Go the status pointer is then nil, and a
later field access on it is a nil dereference (modelled as `none` below).
`xor.XORBase64` and `uuid.FormatUUID` are third-party helpers, abstracted as
oracle components that either produce a value or fail.
-/

/-- The status returned by the root-generation endpoints
(`GenerateRootInit` / `GenerateRootUpdate`). -/
structure GenStatus where
  Nonce : String
  EncodedRootToken : String
deriving DecidableEq

/-- Oracle for the external calls made by `generateRootToken`. `update` and
`cancel` are indexed by the number of calls already made, so that one oracle
describes a whole interaction sequence. -/
structure RootOracle where
  rootInit : String → Except String GenStatus
  rootUpdate : Nat → String → String → Except String GenStatus
  rootCancel : Nat → Option String
  xorB64 : String → String → Option (List Nat)
  fmtUUID : List Nat → Option String

/-- Outcome of the share-submission loop (request.go lines 144-153):
`panicNil` - the loop dereferenced a nil status (`status.Nonce` after a
swallowed failure); `earlyErr` - the loop returned the combined error;
`done` - the loop ran out of shares (carrying the final status pointer,
`none` when it is nil). Counts of update and cancel calls are carried. -/
inductive LoopOut where
  | panicNil (updates cancels : Nat)
  | earlyErr (msg : String) (updates cancels : Nat)
  | done (st : Option GenStatus) (updates cancels : Nat)
deriving DecidableEq

/-- The share-submission loop of `generateRootToken` (request.go lines
144-153): for each share, `status, err = vault.GenerateRootUpdate(s,
status.Nonce)`; on error, `vault.GenerateRootCancel()` - if the cancel also
fails, return the combined error; if the cancel succeeds, fall through to the
next share with the (nil) status just assigned. -/
def submitLoop (o : RootOracle) : List String → Option GenStatus → Nat → Nat → LoopOut
  | [], st, u, c => .done st u c
  | _ :: _, none, u, c => .panicNil u c
  | s :: rest, some stv, u, c =>
    match o.rootUpdate u s stv.Nonce with
    | .ok st' => submitLoop o rest (some st') (u + 1) c
    | .error e =>
      match o.rootCancel c with
      | some e2 =>
        .earlyErr ("Could not generate root token: " ++ e ++ ", " ++ e2)
          (u + 1) (c + 1)
      | none => submitLoop o rest none (u + 1) (c + 1)

/-- The decode phase of `generateRootToken` (request.go lines 160-170):
xor the encoded token with the OTP, then format as a UUID; either failure is
reported as the security-sensitive decode error. -/
def decodeRoot (o : RootOracle) (encoded otp : String) : Except String String :=
  match o.xorB64 encoded otp with
  | none => .error "Could not decode root token. Please search and revoke"
  | some bytes =>
    match o.fmtUUID bytes with
    | none => .error "Could not decode root token. Please search and revoke"
    | some token => .ok token

deriving instance DecidableEq for Except

/-- Trace of one `generateRootToken` run: its result (`none` = nil-pointer
dereference, a Go runtime panic), the number of `GenerateRootUpdate` calls
(share submissions), the number of `GenerateRootCancel` calls, and whether
the decode phase was reached. -/
structure RootTrace where
  result : Option (Except String String)
  updates : Nat
  cancels : Nat
  decodeReached : Bool
deriving DecidableEq

/-- Embedding of `generateRootToken` (request.go lines 136-171). `otp` stands
for the fresh random pad of line 137 (randomness is a parameter). -/
def generateRootToken (o : RootOracle) (otp : String) (unsealKeys : List String) :
    RootTrace :=
  match o.rootInit otp with
  | .error e => ⟨some (.error e), 0, 0, false⟩
  | .ok st0 =>
    let after :=
      if st0.EncodedRootToken = "" then submitLoop o unsealKeys (some st0) 0 0
      else .done (some st0) 0 0
    match after with
    | .panicNil u c => ⟨none, u, c, false⟩
    | .earlyErr m u c => ⟨some (.error m), u, c, false⟩
    | .done none u c => ⟨none, u, c, false⟩
    | .done (some st) u c =>
      if st.EncodedRootToken = "" then
        ⟨some (.error "Could not generate root token. Was vault re-keyed just now?"),
          u, c, false⟩
      else ⟨some (decodeRoot o st.EncodedRootToken otp), u, c, true⟩

/-!
## The unseal bucket serialization (request.go line 209)

`strings.Trim(strings.Join(strings.Fields(fmt.Sprint(wrappingTokens)), ";"), "[]")`
and its inverse `strings.Split(raw, ";")` (line 192), modelled character-wise.
-/

/-- Join words with a separator (`strings.Join`). -/
def joinSep (sep : List Char) : List (List Char) → List Char
  | [] => []
  | [w] => w
  | w :: ws => w ++ sep ++ joinSep sep ws

/-- `fmt.Sprint` of a `[]string`: `[` + elements joined by one space + `]`. -/
def sprintSlice (ts : List (List Char)) : List Char :=
  '[' :: joinSep [' '] ts ++ [']']

/-- `strings.Fields`: split around runs of whitespace. -/
def fieldsCL : List Char → List (List Char)
  | [] => []
  | c :: cs =>
    if c.isWhitespace then fieldsCL cs
    else
      match cs with
      | [] => [[c]]
      | d :: _ =>
        if d.isWhitespace then [c] :: fieldsCL cs
        else
          match fieldsCL cs with
          | [] => [[c]]
          | w :: ws => (c :: w) :: ws

/-- `strings.Split(s, ";")`, character-wise. -/
def splitSemiCL : List Char → List (List Char)
  | [] => [[]]
  | c :: cs =>
    if c = ';' then [] :: splitSemiCL cs
    else
      match splitSemiCL cs with
      | [] => [[c]]
      | w :: ws => (c :: w) :: ws

/-- Drop leading characters belonging to the cutset (`strings.TrimLeft`). -/
def trimLeftCL (cut : List Char) : List Char → List Char
  | [] => []
  | c :: cs => if c ∈ cut then trimLeftCL cut cs else c :: cs

/-- `strings.Trim`: drop leading and trailing characters of the cutset. -/
def trimCL (cut : List Char) (l : List Char) : List Char :=
  (trimLeftCL cut (trimLeftCL cut l).reverse).reverse

/-- The serialization of the token list written back to the bucket
(request.go line 209). -/
def serializeCL (ts : List (List Char)) : List Char :=
  trimCL ['[', ']'] (joinSep [';'] (fieldsCL (sprintSlice ts)))

/-- Character-level well-formedness of a wrapping token (see `wfToken`). -/
def wfTokCL (w : List Char) : Prop :=
  w ≠ [] ∧ ∀ c ∈ w, ¬c.isWhitespace ∧ c ≠ ';' ∧ c ≠ '[' ∧ c ≠ ']'

/-- Append `x` to the last word of a word list. -/
def addLast (x : List Char) : List (List Char) → List (List Char)
  | [] => [x]
  | [w] => [w ++ x]
  | w :: ws => w :: addLast x ws

/-- String-level serialization of the wrapping-token list. -/
def serializeTokens (ts : List String) : String :=
  ⟨serializeCL (ts.map String.data)⟩

/-- String-level `strings.Split(raw, ";")`. -/
def splitSemi (raw : String) : List String :=
  (splitSemiCL raw.data).map List.asString

/-- A well-formed wrapping token: nonempty, and free of whitespace, `;`,
`[` and `]` (true of the opaque handles the external service issues; the
bucket serialization is lossy outside this set). -/
def wfToken (t : String) : Bool :=
  t ≠ "" && t.data.all (fun c => !c.isWhitespace && c ≠ ';' && c ≠ '[' && c ≠ ']')

/-- Outcome of one `appendUnseal` call (request.go lines 174-213), mirroring
the Go returns and effects: `unseals`/`err` are the two returned values
(note line 212 returns both the list and the write error), `wrapped` records
whether `vault.WrapData` was called, `written` the serialized field value
written back (if the write was attempted). -/
structure AppendOut where
  unseals : Option (List String)
  err : Option String
  wrapped : Bool
  written : Option String
deriving DecidableEq

/-- Embedding of `appendUnseal` (request.go lines 174-213), parametrised by
the storage read outcome for `unseal_wrapping_tokens/<hash>`, the outcome of
`vault.WrapData` for the new share, and the outcome of the write back. -/
def appendUnseal (read : Except String (Option Data))
    (wrapRes : Except String String) (writeErr : Option String) : AppendOut :=
  match read with
  | .error e => ⟨none, some e, false, none⟩
  | .ok resp =>
    let existing : Except String (List String) :=
      match resp with
      | none => .ok []
      | some data =>
        let raw :=
          match lookupVal data "wrapping_tokens" with
          | some (.str s) => s
          | _ => ""
        if raw = "" then
          .error "Could not find key \x27wrapping_tokens\x27 in cubbyhole"
        else .ok (splitSemi raw)
    match existing with
    | .error e => ⟨none, some e, false, none⟩
    | .ok tokens =>
      match wrapRes with
      | .error e => ⟨none, some e, true, none⟩
      | .ok newTok =>
        let ts := tokens ++ [newTok]
        ⟨some ts, writeErr, true, some (serializeTokens ts)⟩

/-- N sequential (non-concurrent) `appendUnseal` calls for one ChangeID, with
wrapping and writing succeeding; the state threaded between calls is the
stored field value (`none` before the first call, afterwards exactly what the
previous call wrote). Returns the list returned by the last call, or `none`
if some call failed or no call was made. -/
def runAppends : Option String → List String → Option (List String)
  | _, [] => none
  | stored, t :: rest =>
    let out := appendUnseal
      (.ok (stored.map (fun s => [("wrapping_tokens", GoVal.str s)]))) (.ok t) none
    match out.unseals, out.written, rest with
    | some l, _, [] => some l
    | some _, some w, _ :: _ => runAppends (some w) rest
    | _, _, _ => none

/-- Embedding of `unwrapUnseals` (request.go lines 215-228), parametrised by
the external `vault.UnwrapData`. The outer `Option` is `none` exactly when
the unchecked type assertion `unseal.(string)` at line 222 fails - a Go
runtime panic. -/
def unwrapUnseals (unwrap : String → Except String Data) :
    List String → Option (Except String (List String))
  | [] => some (.ok [])
  | t :: rest =>
    match unwrap t with
    | .error e => some (.error e)
    | .ok data =>
      match lookupVal data "unseal_token" with
      | none => some (.error "One of the wrapping tokens timed out. Progress reset.")
      | some (.other _) => none
      | some (.str s) =>
        match unwrapUnseals unwrap rest with
        | none => none
        | some (.error e) => some (.error e)
        | some (.ok ss) => some (.ok (s :: ss))

/-- Concrete oracle: the ceremony starts empty, every share submission is
rejected, every cancellation succeeds. -/
def rejectCancelOkOracle : RootOracle :=
  ⟨fun _ => .ok ⟨"nonce0", ""⟩, fun _ _ _ => .error "share rejected",
   fun _ => none, fun _ _ => some [0], fun _ => some "uuid"⟩

/-- Concrete oracle: the ceremony starts empty, every share submission is
rejected, every cancellation fails. -/
def rejectCancelFailOracle : RootOracle :=
  ⟨fun _ => .ok ⟨"nonce0", ""⟩, fun _ _ _ => .error "share rejected",
   fun _ => some "cancel down", fun _ _ => some [0], fun _ => some "uuid"⟩

/-- Concrete oracle: the ceremony-initiation response already carries an
encoded root token. -/
def preexistingTokenOracle : RootOracle :=
  ⟨fun _ => .ok ⟨"n0", "enc"⟩, fun _ _ _ => .error "never reached",
   fun _ => none, fun _ _ => some [1, 2], fun _ => some "uuid-ok"⟩

/-- Concrete oracle: every submission succeeds but the encoded token stays
empty. -/
def emptyCeremonyOracle : RootOracle :=
  ⟨fun _ => .ok ⟨"n0", ""⟩, fun _ _ n => .ok ⟨n, ""⟩,
   fun _ => none, fun _ _ => some [1], fun _ => some "uuid"⟩

/-- A sample stored policy record, used to instantiate theorems at a concrete
input. -/
def sampleRecord : Data :=
  [("Type", GoVal.str "Policy"), ("PolicyName", GoVal.str "readonly")]

/-- The sample record with the single field `PolicyName` altered. -/
def tamperedRecord : Data := alterField sampleRecord "PolicyName" (GoVal.str "rw")

/-!
## Lemmas: injectivity of the hash encoding
-/

theorem stringData_inj {s t : String} (h : s.data = t.data) : s = t := by
  cases s; cases t; simp_all

theorem charToNat_inj : Function.Injective Char.toNat := by
  intro a b h
  rw [← Char.ofNat_toNat a, ← Char.ofNat_toNat b, h]

theorem encodeList_inj {α : Type} (f : α → Nat) (hf : Function.Injective f) :
    Function.Injective (encodeList f) := by
  intro l1 l2 h
  induction l1 generalizing l2 with
  | nil =>
    cases l2 with
    | nil => rfl
    | cons b t => simp [encodeList] at h
  | cons a t ih =>
    cases l2 with
    | nil => simp [encodeList] at h
    | cons b t2 =>
      simp only [encodeList] at h
      have h' : Nat.pair (f a) (encodeList f t) = Nat.pair (f b) (encodeList f t2) := by
        omega
      have hp := Nat.pair_eq_pair.mp h'
      rw [hf hp.1, ih hp.2]

theorem encodeString_inj : Function.Injective encodeString := by
  intro s t h
  exact stringData_inj (encodeList_inj Char.toNat charToNat_inj h)

theorem encodeGoVal_inj : Function.Injective encodeGoVal := by
  intro a b h
  cases a <;> cases b <;> simp only [encodeGoVal] at h <;>
    have hp := Nat.pair_eq_pair.mp h
  · rw [encodeString_inj hp.2]
  · omega
  · omega
  · rw [hp.2]

theorem encodeEntry_inj : Function.Injective encodeEntry := by
  intro p q h
  have hp := Nat.pair_eq_pair.mp h
  obtain ⟨p1, p2⟩ := p
  obtain ⟨q1, q2⟩ := q
  simp only at hp
  rw [Prod.mk.injEq]
  exact ⟨encodeString_inj hp.1, encodeGoVal_inj hp.2⟩

theorem encodeData_inj : Function.Injective encodeData :=
  encodeList_inj encodeEntry encodeEntry_inj

theorem digitChar_lt_inj :
    ∀ a : Nat, a < 16 → ∀ b : Nat, b < 16 →
      Nat.digitChar a = Nat.digitChar b → a = b := by decide

theorem map_digitChar_inj :
    ∀ l1 l2 : List Nat, (∀ d ∈ l1, d < 16) → (∀ d ∈ l2, d < 16) →
      l1.map Nat.digitChar = l2.map Nat.digitChar → l1 = l2 := by
  intro l1
  induction l1 with
  | nil => intro l2 _ _ h; cases l2 <;> simp_all
  | cons a t ih =>
    intro l2 h1 h2 h
    cases l2 with
    | nil => simp_all
    | cons b t2 =>
      simp only [List.map_cons, List.cons.injEq] at h
      have ha := digitChar_lt_inj a (h1 a (by simp)) b (h2 b (by simp)) h.1
      have ht := ih t2 (fun d hd => h1 d (by simp [hd])) (fun d hd => h2 d (by simp [hd])) h.2
      rw [ha, ht]

theorem natToHex_inj : Function.Injective natToHex := by
  intro m n h
  unfold natToHex at h
  have hl : ((Nat.digits 16 m).reverse.map Nat.digitChar) =
      ((Nat.digits 16 n).reverse.map Nat.digitChar) := by
    have := congrArg String.data h
    simpa using this
  have hd : (Nat.digits 16 m).reverse = (Nat.digits 16 n).reverse := by
    apply map_digitChar_inj
    · intro d hd; exact Nat.digits_lt_base (by norm_num) (List.mem_reverse.mp hd)
    · intro d hd; exact Nat.digits_lt_base (by norm_num) (List.mem_reverse.mp hd)
    · exact hl
  have hdig : Nat.digits 16 m = Nat.digits 16 n := List.reverse_injective hd
  have := congrArg (Nat.ofDigits 16) hdig
  rwa [Nat.ofDigits_digits, Nat.ofDigits_digits] at this

theorem computeHash_inj : Function.Injective computeHash := by
  intro a b h
  exact encodeData_inj (natToHex_inj h)

/-!
## Lemmas: the canonical decoded form
-/

theorem lookupVal_of_perm {d1 d2 : Data} (h : d1.Perm d2) (nd : NodupKeys d1)
    (k : String) : lookupVal d1 k = lookupVal d2 k := by
  induction h with
  | nil => rfl
  | cons x h ih =>
    obtain ⟨a, b⟩ := x
    have nd' : NodupKeys _ := (List.nodup_cons.mp nd).2
    simp only [lookupVal]
    split
    · rfl
    · exact ih nd'
  | swap x y l =>
    obtain ⟨a, b⟩ := x
    obtain ⟨c, e⟩ := y
    have hne : c ≠ a := by
      simp only [NodupKeys, List.map_cons, List.nodup_cons, List.mem_cons, not_or] at nd
      exact nd.1.1
    by_cases ha : a = k <;> by_cases hc : c = k
    · exact absurd (hc.trans ha.symm) hne
    · simp [lookupVal, ha, hc]
    · simp [lookupVal, ha, hc]
    · simp [lookupVal, ha, hc]
  | trans h1 h2 ih1 ih2 =>
    have nd2 : NodupKeys _ := ((h1.map Prod.fst).nodup_iff).mp nd
    rw [ih1 nd, ih2 nd2]

theorem sortKeys_eq_of_perm {l1 l2 : List String} (h : l1.Perm l2) :
    sortKeys l1 = sortKeys l2 := by
  apply List.eq_of_perm_of_sorted (r := (· ≤ · : String → String → Prop))
  · exact (List.mergeSort_perm l1 _).trans (h.trans (List.mergeSort_perm l2 _).symm)
  · exact List.sorted_mergeSort' _
  · exact List.sorted_mergeSort' _

theorem decodeData_of_perm {d1 d2 : Data} (h : d1.Perm d2) (nd : NodupKeys d1) :
    decodeData d1 = decodeData d2 := by
  unfold decodeData
  rw [sortKeys_eq_of_perm ((h.map Prod.fst).dedup)]
  exact List.map_congr_left (fun k _ => by rw [lookupVal_of_perm h nd k])

theorem alterField_keys (d : Data) (k : String) (v' : GoVal) :
    (alterField d k v').map Prod.fst = d.map Prod.fst := by
  unfold alterField
  rw [List.map_map]
  apply List.map_congr_left
  intro p _
  by_cases hp : p.1 = k <;> simp [hp]

theorem lookupVal_alterField_self (d : Data) (k : String) (v' : GoVal)
    (hk : k ∈ d.map Prod.fst) : lookupVal (alterField d k v') k = some v' := by
  induction d with
  | nil => simp at hk
  | cons p t ih =>
    obtain ⟨a, b⟩ := p
    by_cases ha : a = k
    · subst ha
      show lookupVal ((if a = a then (a, v') else (a, b)) :: alterField t a v') a = some v'
      rw [if_pos rfl]
      simp [lookupVal]
    · have hk' : k ∈ t.map Prod.fst := by
        simp only [List.map_cons, List.mem_cons] at hk
        exact hk.resolve_left (fun hh => ha hh.symm)
      show lookupVal ((if a = k then (k, v') else (a, b)) :: alterField t k v') k = some v'
      rw [if_neg ha]
      show (if a = k then some b else lookupVal (alterField t k v') k) = some v'
      rw [if_neg ha]
      exact ih hk'

theorem lookupVal_mem {d : Data} (nd : NodupKeys d) {k : String} {v : GoVal}
    (hm : (k, v) ∈ d) : lookupVal d k = some v := by
  induction d with
  | nil => simp at hm
  | cons p t ih =>
    obtain ⟨a, b⟩ := p
    simp only [NodupKeys, List.map_cons, List.nodup_cons] at nd
    rcases List.mem_cons.mp hm with hh | ht
    · obtain ⟨h1, h2⟩ := Prod.mk.injEq .. ▸ hh
      simp [lookupVal, h1.symm, h2]
    · have ha : a ≠ k := by
        intro hak
        exact nd.1 (hak ▸ List.mem_map_of_mem Prod.fst ht)
      simpa [lookupVal, ha] using ih nd.2 ht

theorem mem_sortKeys_dedup {d : Data} {k : String} (hk : k ∈ d.map Prod.fst) :
    k ∈ sortKeys (d.map Prod.fst).dedup := by
  have : k ∈ (d.map Prod.fst).dedup := List.mem_dedup.mpr hk
  exact ((List.mergeSort_perm _ _).mem_iff).mpr this

theorem decodeData_alter_ne {d : Data} {k : String} {v v' : GoVal}
    (nd : NodupKeys d) (hm : (k, v) ∈ d) (hne : v' ≠ v) :
    decodeData (alterField d k v') ≠ decodeData d := by
  intro heq
  unfold decodeData at heq
  rw [alterField_keys] at heq
  have hkmem : k ∈ d.map Prod.fst := List.mem_map_of_mem Prod.fst hm
  have h2 := (List.map_inj_left.mp heq) k (mem_sortKeys_dedup hkmem)
  rw [lookupVal_alterField_self d k v' hkmem, lookupVal_mem nd hm] at h2
  simp only [Option.getD_some, Prod.mk.injEq] at h2
  exact hne h2.2

theorem computeHash_alter_ne {d : Data} {k : String} {v v' : GoVal}
    (nd : NodupKeys d) (hm : (k, v) ∈ d) (hne : v' ≠ v) :
    computeHash (decodeData (alterField d k v')) ≠ computeHash (decodeData d) :=
  fun h => decodeData_alter_ne nd hm hne (computeHash_inj h)

theorem getTypeField_of_lookup {d : Data} {t : String}
    (h : lookupVal d "Type" = some (.str t)) : getTypeField d = t := by
  unfold getTypeField
  rw [h]

/-!
## Claims C5, C7, C1
-/

/-- C5: `Add` looks up the `Type` field of the raw payload; a missing key, a
non-string value or an empty string value yields the InputValidation error
`Type field is empty`, and a nonempty unrecognized value yields
`Unsupported request type` - in both cases the result is `AddOut.err`, which
by construction carries no storage write and no variant dispatch. A value
whose lowercase form is `policy` (the type value is matched
case-insensitively) dispatches to the policy variant's `Create` with the raw
payload. -/
theorem claim_C5_add_type_validation :
    (∀ raw : Data,
      (lookupVal raw "Type" = none ∨ (∃ n, lookupVal raw "Type" = some (.other n)) ∨
        lookupVal raw "Type" = some (.str "")) →
      Add raw = .err "Type field is empty") ∧
    (∀ (raw : Data) (t : String), lookupVal raw "Type" = some (.str t) → t ≠ "" →
      lowerStr t ≠ "policy" → Add raw = .err "Unsupported request type") ∧
    (∀ (raw : Data) (t : String), lookupVal raw "Type" = some (.str t) → t ≠ "" →
      lowerStr t = "policy" → Add raw = .createPolicy raw) := by
  refine ⟨?_, ?_, ?_⟩
  · intro raw h
    have ht : getTypeField raw = "" := by
      unfold getTypeField
      rcases h with h | ⟨n, h⟩ | h <;> rw [h]
    simp [Add, ht]
  · intro raw t hl hne hnp
    simp [Add, getTypeField_of_lookup hl, hne, hnp]
  · intro raw t hl hne hp
    simp [Add, getTypeField_of_lookup hl, hne, hp]

/-- Witness for C5: a payload without `Type`, one with an unrecognized type,
and one with type `POLICY` (case-insensitive match). -/
theorem claim_C5_witness :
    Add [("x", GoVal.str "y")] = .err "Type field is empty" ∧
    Add [("Type", GoVal.str "foo")] = .err "Unsupported request type" ∧
    Add [("Type", GoVal.str "POLICY")] = .createPolicy [("Type", GoVal.str "POLICY")] :=
  ⟨claim_C5_add_type_validation.1 _ (by exact Or.inl (by decide)),
   claim_C5_add_type_validation.2.1 _ "foo" (by decide) (by decide) (by decide),
   claim_C5_add_type_validation.2.2 _ "POLICY" (by decide) (by decide) (by decide)⟩

/-- C7: the structural hash used as ChangeID (modelled from the spec, the
`hashstructure` call being outside `src/`) is a function of the decoded
variant (deterministic by construction), its value on a stored field list is
invariant under any reordering of the fields, and mutating the value of any
single field of a record yields a different hash. -/
theorem claim_C7_hash_deterministic_injective :
    (∀ d1 d2 : Data, NodupKeys d1 → d1.Perm d2 →
      computeHash (decodeData d1) = computeHash (decodeData d2)) ∧
    (∀ (d : Data) (k : String) (v v' : GoVal), NodupKeys d → (k, v) ∈ d → v' ≠ v →
      computeHash (decodeData (alterField d k v')) ≠ computeHash (decodeData d)) := by
  constructor
  · intro d1 d2 nd h
    rw [decodeData_of_perm h nd]
  · intro d k v v' nd hm hne
    exact computeHash_alter_ne nd hm hne

/-- Witness for C7: reordering the fields of the sample record preserves the
hash; altering one field changes it. -/
theorem claim_C7_witness :
    computeHash (decodeData sampleRecord) =
      computeHash (decodeData
        [("PolicyName", GoVal.str "readonly"), ("Type", GoVal.str "Policy")]) ∧
    computeHash (decodeData tamperedRecord) ≠ computeHash (decodeData sampleRecord) :=
  ⟨claim_C7_hash_deterministic_injective.1 _ _ (by decide) (by decide),
   claim_C7_hash_deterministic_injective.2 sampleRecord "PolicyName"
     (GoVal.str "readonly") (GoVal.str "rw") (by decide) (by decide) (by decide)⟩

/-- C1: `Get` propagates a storage read error; reports `Change ID not found`
on an absent record; for a policy-typed record it decodes the payload,
recomputes the structural hash and reports `Hashes do not match` whenever the
recomputed hash differs from the supplied ChangeID; when the hash matches it
calls `Verify` and propagates its error; otherwise it returns the live
decoded variant. Consequently a record whose stored payload has any single
field's value altered is never returned for the original ChangeID. -/
theorem claim_C1_get_integrity :
    (∀ (verify : Data → Option String) (hash e : String),
      Get (.error e) verify hash = .error e) ∧
    (∀ (verify : Data → Option String) (hash : String),
      Get (.ok none) verify hash = .error "Change ID not found") ∧
    (∀ (d : Data) (verify : Data → Option String) (hash t : String),
      lookupVal d "Type" = some (.str t) → t ≠ "" → lowerStr t = "policy" →
      computeHash (decodeData d) ≠ hash →
      Get (.ok (some d)) verify hash = .error "Hashes do not match") ∧
    (∀ (d : Data) (verify : Data → Option String) (hash t e : String),
      lookupVal d "Type" = some (.str t) → t ≠ "" → lowerStr t = "policy" →
      computeHash (decodeData d) = hash → verify (decodeData d) = some e →
      Get (.ok (some d)) verify hash = .error e) ∧
    (∀ (d : Data) (verify : Data → Option String) (hash t : String),
      lookupVal d "Type" = some (.str t) → t ≠ "" → lowerStr t = "policy" →
      computeHash (decodeData d) = hash → verify (decodeData d) = none →
      Get (.ok (some d)) verify hash = .ok (decodeData d)) ∧
    (∀ (d : Data) (k : String) (v v' : GoVal) (verify : Data → Option String),
      NodupKeys d → (k, v) ∈ d → v' ≠ v →
      ∀ r, Get (.ok (some (alterField d k v'))) verify
        (computeHash (decodeData d)) ≠ .ok r) := by
  refine ⟨fun _ _ _ => rfl, fun _ _ => rfl, ?_, ?_, ?_, ?_⟩
  · intro d verify hash t hl hne hp hmis
    simp [Get, getTypeField_of_lookup hl, hne, hp, hmis]
  · intro d verify hash t e hl hne hp hmatch hv
    simp [Get, getTypeField_of_lookup hl, hne, hp, hmatch, hv]
  · intro d verify hash t hl hne hp hmatch hv
    simp [Get, getTypeField_of_lookup hl, hne, hp, hmatch, hv]
  · intro d k v v' verify nd hm hne r heq
    by_cases ht : getTypeField (alterField d k v') = ""
    · simp [Get, ht] at heq
    · by_cases hp : lowerStr (getTypeField (alterField d k v')) = "policy"
      · simp [Get, ht, hp, computeHash_alter_ne nd hm hne] at heq
      · simp [Get, ht, hp] at heq

/-- Witness for C1: a concrete run of each branch of `Get` on the sample
record, and the tamper-evidence fact at the altered record. -/
theorem claim_C1_witness :
    Get (.error "read failed") (fun _ => none) "h" = .error "read failed" ∧
    Get (.ok none) (fun _ => none) "h" = .error "Change ID not found" ∧
    Get (.ok (some tamperedRecord)) (fun _ => none)
      (computeHash (decodeData sampleRecord)) = .error "Hashes do not match" ∧
    Get (.ok (some sampleRecord)) (fun _ => some "not actionable")
      (computeHash (decodeData sampleRecord)) = .error "not actionable" ∧
    Get (.ok (some sampleRecord)) (fun _ => none)
      (computeHash (decodeData sampleRecord)) = .ok (decodeData sampleRecord) ∧
    Get (.ok (some tamperedRecord)) (fun _ => none)
      (computeHash (decodeData sampleRecord)) ≠ .ok (decodeData sampleRecord) :=
  ⟨claim_C1_get_integrity.1 _ _ "read failed",
   claim_C1_get_integrity.2.1 _ _,
   claim_C1_get_integrity.2.2.1 _ _ _ "Policy" (by decide) (by decide) (by decide)
     (computeHash_alter_ne (d := sampleRecord) (v := GoVal.str "readonly")
       (by decide) (by decide) (by decide)),
   claim_C1_get_integrity.2.2.2.1 _ _ _ "Policy" "not actionable"
     (by decide) (by decide) (by decide) rfl rfl,
   claim_C1_get_integrity.2.2.2.2.1 _ _ _ "Policy"
     (by decide) (by decide) (by decide) rfl rfl,
   claim_C1_get_integrity.2.2.2.2.2 sampleRecord "PolicyName"
     (GoVal.str "readonly") (GoVal.str "rw") _ (by decide) (by decide) (by decide)
     (decodeData sampleRecord)⟩

/-!
## Claims C2, C6, C9
-/

/-- C2 counterexample: one share, its submission is rejected, and the
best-effort cancellation succeeds. The claimed combined error naming the
rejection is not returned: the rejection is swallowed (the loop falls
through), no error mentioning it ever reaches the caller, and the function
ends dereferencing the nil status returned alongside the rejection
(`result = none`, a Go runtime panic, with one update and one cancel call
made). -/
theorem claim_C2_counterexample :
    generateRootToken rejectCancelOkOracle "otp" ["key1"] =
      ⟨none, 1, 1, false⟩ := rfl

/-- C2 amended: whenever a share submission is rejected AND the best-effort
cancellation also fails, `generateRootToken` immediately returns the combined
error naming both failures; when the cancellation succeeds, the rejection is
swallowed and the loop continues with the nil status (see the
counterexample). First conjunct: the loop behaviour at any position; second
conjunct: the combined error is the function's result. -/
theorem claim_C2_amended_combined_error :
    (∀ (o : RootOracle) (s : String) (rest : List String) (stv : GenStatus)
      (u c : Nat) (e e2 : String),
      o.rootUpdate u s stv.Nonce = .error e → o.rootCancel c = some e2 →
      submitLoop o (s :: rest) (some stv) u c =
        .earlyErr ("Could not generate root token: " ++ e ++ ", " ++ e2)
          (u + 1) (c + 1)) ∧
    (∀ (o : RootOracle) (otp : String) (keys : List String) (st0 : GenStatus)
      (m : String) (u c : Nat),
      o.rootInit otp = .ok st0 → st0.EncodedRootToken = "" →
      submitLoop o keys (some st0) 0 0 = .earlyErr m u c →
      (generateRootToken o otp keys).result = some (.error m)) := by
  constructor
  · intro o s rest stv u c e e2 hu hc
    simp [submitLoop, hu, hc]
  · intro o otp keys st0 m u c hi h0 hl
    simp [generateRootToken, hi, h0, hl]

/-- Witness for the amended C2: a rejected share with a failing cancellation
produces the combined error naming both failures. -/
theorem claim_C2_witness :
    submitLoop rejectCancelFailOracle ["key1"] (some ⟨"nonce0", ""⟩) 0 0 =
      .earlyErr ("Could not generate root token: " ++ "share rejected" ++ ", " ++
        "cancel down") 1 1 ∧
    (generateRootToken rejectCancelFailOracle "otp" ["key1"]).result =
      some (.error ("Could not generate root token: " ++ "share rejected" ++ ", " ++
        "cancel down")) :=
  ⟨claim_C2_amended_combined_error.1 rejectCancelFailOracle "key1" [] ⟨"nonce0", ""⟩
     0 0 "share rejected" "cancel down" rfl rfl,
   claim_C2_amended_combined_error.2 rejectCancelFailOracle "otp" ["key1"]
     ⟨"nonce0", ""⟩ _ 1 1 rfl rfl
     (claim_C2_amended_combined_error.1 rejectCancelFailOracle "key1" []
       ⟨"nonce0", ""⟩ 0 0 "share rejected" "cancel down" rfl rfl)⟩

/-- C6: if the submission phase completes (the loop runs out of shares with a
live status) and the encoded root token is still empty, `generateRootToken`
fails with the ThresholdNotMet error and the decode phase is never reached
(`decodeReached = false`). -/
theorem claim_C6_threshold_not_met :
    ∀ (o : RootOracle) (otp : String) (keys : List String)
      (st0 st' : GenStatus) (u c : Nat),
      o.rootInit otp = .ok st0 → st0.EncodedRootToken = "" →
      submitLoop o keys (some st0) 0 0 = .done (some st') u c →
      st'.EncodedRootToken = "" →
      generateRootToken o otp keys =
        ⟨some (.error "Could not generate root token. Was vault re-keyed just now?"),
          u, c, false⟩ := by
  intro o otp keys st0 st' u c hi h0 hl h'
  simp [generateRootToken, hi, h0, hl, h']

/-- Witness for C6: an empty share list leaves the token empty; the result is
the ThresholdNotMet error with no decode attempt. -/
theorem claim_C6_witness :
    generateRootToken emptyCeremonyOracle "otp" [] =
      ⟨some (.error "Could not generate root token. Was vault re-keyed just now?"),
        0, 0, false⟩ :=
  claim_C6_threshold_not_met emptyCeremonyOracle "otp" [] ⟨"n0", ""⟩ ⟨"n0", ""⟩
    0 0 rfl rfl rfl rfl

/-- C9: when the ceremony-initiation response already carries a non-empty
encoded root token, the submission loop is skipped entirely - zero
`GenerateRootUpdate` and zero `GenerateRootCancel` calls, whatever the share
list - and the function proceeds directly to decoding that pre-existing
encoded token. -/
theorem claim_C9_skip_when_token_present :
    ∀ (o : RootOracle) (otp : String) (keys : List String) (st0 : GenStatus),
      o.rootInit otp = .ok st0 → st0.EncodedRootToken ≠ "" →
      generateRootToken o otp keys =
        ⟨some (decodeRoot o st0.EncodedRootToken otp), 0, 0, true⟩ := by
  intro o otp keys st0 hi h0
  simp [generateRootToken, hi, h0]

/-- Witness for C9: two shares are provided but none is submitted; the
pre-existing encoded token is decoded. -/
theorem claim_C9_witness :
    generateRootToken preexistingTokenOracle "otp" ["k1", "k2"] =
      ⟨some (.ok "uuid-ok"), 0, 0, true⟩ :=
  claim_C9_skip_when_token_present preexistingTokenOracle "otp" ["k1", "k2"]
    ⟨"n0", "enc"⟩ rfl (by decide)

/-!
## Lemmas: the bucket serialization round-trip
-/

theorem joinSep_cons_cons (sep w v : List Char) (ws : List (List Char)) :
    joinSep sep (w :: v :: ws) = w ++ sep ++ joinSep sep (v :: ws) := rfl

theorem joinSep_ne_nil {sep t : List Char} {ts : List (List Char)} (ht : t ≠ []) :
    joinSep sep (t :: ts) ≠ [] := by
  cases ts with
  | nil => simpa [joinSep] using ht
  | cons v ws =>
    rw [joinSep_cons_cons]
    intro h
    exact ht (List.append_eq_nil.mp (List.append_eq_nil.mp h).1).1

theorem joinSep_addLast (sep x : List Char) :
    ∀ ts : List (List Char), ts ≠ [] →
      joinSep sep (addLast x ts) = joinSep sep ts ++ x := by
  intro ts
  induction ts with
  | nil => intro h; exact absurd rfl h
  | cons w ws ih =>
    intro _
    cases ws with
    | nil => simp [addLast, joinSep]
    | cons v ws' =>
      have h1 : addLast x (w :: v :: ws') = w :: addLast x (v :: ws') := rfl
      rw [h1]
      have h2 : ∃ u us, addLast x (v :: ws') = u :: us := by
        cases ws' <;> exact ⟨_, _, rfl⟩
      obtain ⟨u, us, h2⟩ := h2
      rw [h2, joinSep_cons_cons, ← h2, ih (by simp), joinSep_cons_cons]
      simp [List.append_assoc]

theorem joinSep_cons_head (sep t : List Char) (ts : List (List Char)) :
    joinSep sep (('[' :: t) :: ts) = '[' :: joinSep sep (t :: ts) := by
  cases ts with
  | nil => rfl
  | cons v ws => rfl

theorem mem_joinSep {sep : List Char} {c : Char} :
    ∀ {ts : List (List Char)}, c ∈ joinSep sep ts → c ∈ sep ∨ ∃ w ∈ ts, c ∈ w := by
  intro ts
  induction ts with
  | nil => intro h; simp [joinSep] at h
  | cons w ws ih =>
    intro h
    cases ws with
    | nil => exact Or.inr ⟨w, by simp, by simpa [joinSep] using h⟩
    | cons v ws' =>
      rw [joinSep_cons_cons] at h
      rcases List.mem_append.mp h with h1 | h2
      · rcases List.mem_append.mp h1 with ha | hb
        · exact Or.inr ⟨w, by simp, ha⟩
        · exact Or.inl hb
      · rcases ih h2 with h3 | ⟨u, hu, hc⟩
        · exact Or.inl h3
        · exact Or.inr ⟨u, by simp [hu], hc⟩

theorem addLast_elems_prop (P : List Char → Prop) (x : List Char) :
    ∀ ts : List (List Char), (∀ w ∈ ts, P w) → (∀ w ∈ ts, P (w ++ x)) → P x →
      ∀ w ∈ addLast x ts, P w := by
  intro ts
  induction ts with
  | nil =>
    intro _ _ hx w hw
    simp [addLast] at hw
    subst hw
    exact hx
  | cons u us ih =>
    intro h1 h2 hx w hw
    cases us with
    | nil =>
      simp [addLast] at hw
      subst hw
      exact h2 u (by simp)
    | cons v vs =>
      rw [show addLast x (u :: v :: vs) = u :: addLast x (v :: vs) from rfl] at hw
      rcases List.mem_cons.mp hw with h | h
      · subst h; exact h1 w (by simp)
      · exact ih (fun a ha => h1 a (by simp [ha])) (fun a ha => h2 a (by simp [ha])) hx w h

theorem fieldsCL_ws_cons {c : Char} (hc : c.isWhitespace) (l : List Char) :
    fieldsCL (c :: l) = fieldsCL l := by
  simp [fieldsCL, hc]

theorem fieldsCL_cons_eq (c : Char) (cs : List Char) :
    fieldsCL (c :: cs) =
      if c.isWhitespace then fieldsCL cs
      else
        match cs with
        | [] => [[c]]
        | d :: _ =>
          if d.isWhitespace then [c] :: fieldsCL cs
          else
            match fieldsCL cs with
            | [] => [[c]]
            | w :: ws => (c :: w) :: ws := rfl

theorem fieldsCL_word_end :
    ∀ w : List Char, w ≠ [] → (∀ c ∈ w, ¬c.isWhitespace) → fieldsCL w = [w] := by
  intro w
  induction w with
  | nil => intro h; exact absurd rfl h
  | cons c w0 ih =>
    intro _ hnws
    have hc : ¬c.isWhitespace := hnws c (by simp)
    cases w0 with
    | nil => simp [fieldsCL, hc]
    | cons d w1 =>
      have hd : ¬d.isWhitespace := hnws d (by simp)
      have ihh := ih (by simp) (fun x hx => hnws x (by simp [hx]))
      rw [fieldsCL_cons_eq, if_neg hc]
      show (if d.isWhitespace then [c] :: fieldsCL (d :: w1)
        else
          match fieldsCL (d :: w1) with
          | [] => [[c]]
          | w :: ws => (c :: w) :: ws) = [c :: d :: w1]
      rw [if_neg hd, ihh]

theorem fieldsCL_word_break :
    ∀ (w l : List Char), w ≠ [] → (∀ c ∈ w, ¬c.isWhitespace) →
      fieldsCL (w ++ ' ' :: l) = w :: fieldsCL l := by
  intro w
  induction w with
  | nil => intro l h; exact absurd rfl h
  | cons c w0 ih =>
    intro l _ hnws
    have hc : ¬c.isWhitespace := hnws c (by simp)
    cases w0 with
    | nil =>
      have hsp : (' ' : Char).isWhitespace := by decide
      show fieldsCL (c :: ' ' :: l) = [c] :: fieldsCL l
      rw [fieldsCL_cons_eq, if_neg hc]
      show (if (' ' : Char).isWhitespace then [c] :: fieldsCL (' ' :: l)
        else
          match fieldsCL (' ' :: l) with
          | [] => [[c]]
          | w :: ws => (c :: w) :: ws) = [c] :: fieldsCL l
      rw [if_pos hsp, fieldsCL_ws_cons hsp]
    | cons d w1 =>
      have hd : ¬d.isWhitespace := hnws d (by simp)
      have ihh := ih l (by simp) (fun x hx => hnws x (by simp [hx]))
      rw [show (d :: w1 ++ ' ' :: l : List Char) = d :: (w1 ++ ' ' :: l) from rfl] at ihh
      show fieldsCL (c :: (d :: (w1 ++ ' ' :: l))) = (c :: d :: w1) :: fieldsCL l
      rw [fieldsCL_cons_eq, if_neg hc]
      show (if d.isWhitespace then [c] :: fieldsCL (d :: (w1 ++ ' ' :: l))
        else
          match fieldsCL (d :: (w1 ++ ' ' :: l)) with
          | [] => [[c]]
          | w :: ws => (c :: w) :: ws) = (c :: d :: w1) :: fieldsCL l
      rw [if_neg hd, ihh]

theorem fieldsCL_joinSep :
    ∀ ts : List (List Char), (∀ w ∈ ts, w ≠ [] ∧ ∀ c ∈ w, ¬c.isWhitespace) →
      fieldsCL (joinSep [' '] ts) = ts := by
  intro ts
  induction ts with
  | nil => intro _; rfl
  | cons w ws ih =>
    intro h
    cases ws with
    | nil =>
      have hw := h w (by simp)
      simpa [joinSep] using fieldsCL_word_end w hw.1 hw.2
    | cons v ws' =>
      rw [joinSep_cons_cons]
      have hw := h w (by simp)
      rw [List.append_assoc]
      rw [show ([' '] ++ joinSep [' '] (v :: ws') : List Char) =
        ' ' :: joinSep [' '] (v :: ws') from rfl]
      rw [fieldsCL_word_break w _ hw.1 hw.2]
      rw [ih (fun x hx => h x (by simp [hx]))]

theorem splitSemiCL_word_break :
    ∀ (w l : List Char), (∀ c ∈ w, c ≠ ';') →
      splitSemiCL (w ++ ';' :: l) = w :: splitSemiCL l := by
  intro w
  induction w with
  | nil => intro l _; simp [splitSemiCL]
  | cons c w0 ih =>
    intro l h
    have hc : c ≠ ';' := h c (by simp)
    have ihh := ih l (fun x hx => h x (by simp [hx]))
    rw [show ((c :: w0) ++ ';' :: l : List Char) = c :: (w0 ++ ';' :: l) from rfl]
    simp [splitSemiCL, hc, ihh]

theorem splitSemiCL_no_semi :
    ∀ w : List Char, (∀ c ∈ w, c ≠ ';') → splitSemiCL w = [w] := by
  intro w
  induction w with
  | nil => intro _; rfl
  | cons c w0 ih =>
    intro h
    have hc : c ≠ ';' := h c (by simp)
    have ihh := ih (fun x hx => h x (by simp [hx]))
    simp [splitSemiCL, hc, ihh]

theorem splitSemiCL_joinSep :
    ∀ ts : List (List Char), ts ≠ [] → (∀ w ∈ ts, ∀ c ∈ w, c ≠ ';') →
      splitSemiCL (joinSep [';'] ts) = ts := by
  intro ts
  induction ts with
  | nil => intro h; exact absurd rfl h
  | cons w ws ih =>
    intro _ h
    cases ws with
    | nil => simpa [joinSep] using splitSemiCL_no_semi w (h w (by simp))
    | cons v ws' =>
      rw [joinSep_cons_cons, List.append_assoc]
      rw [show ([';'] ++ joinSep [';'] (v :: ws') : List Char) =
        ';' :: joinSep [';'] (v :: ws') from rfl]
      rw [splitSemiCL_word_break w _ (h w (by simp))]
      rw [ih (by simp) (fun x hx => h x (by simp [hx]))]

theorem trimLeftCL_mem {cut : List Char} {c : Char} (h : c ∈ cut) (l : List Char) :
    trimLeftCL cut (c :: l) = trimLeftCL cut l := by
  simp [trimLeftCL, h]

theorem trimLeftCL_not_mem {cut : List Char} {c : Char} (h : c ∉ cut) (l : List Char) :
    trimLeftCL cut (c :: l) = c :: l := by
  simp [trimLeftCL, h]

theorem trimCL_brackets (m : List Char) (hne : m ≠ [])
    (hall : ∀ c ∈ m, c ≠ '[' ∧ c ≠ ']') :
    trimCL ['[', ']'] ('[' :: m ++ [']']) = m := by
  unfold trimCL
  have h1 : trimLeftCL ['[', ']'] ('[' :: (m ++ [']'])) = m ++ [']'] := by
    rw [trimLeftCL_mem (by simp)]
    cases m with
    | nil => exact absurd rfl hne
    | cons h t =>
      have hh := hall h (by simp)
      exact trimLeftCL_not_mem (by simp [hh.1, hh.2]) _
  rw [show ('[' :: m ++ [']'] : List Char) = '[' :: (m ++ [']']) from rfl, h1]
  have h2 : (m ++ [']'] : List Char).reverse = ']' :: m.reverse := by simp
  rw [h2, trimLeftCL_mem (by simp)]
  have h3 : trimLeftCL ['[', ']'] m.reverse = m.reverse := by
    cases hr : m.reverse with
    | nil => rfl
    | cons h t =>
      have hm : h ∈ m := by
        have : h ∈ m.reverse := by rw [hr]; simp
        simpa using this
      have hh := hall h hm
      exact trimLeftCL_not_mem (by simp [hh.1, hh.2]) _
  rw [h3]
  simp

theorem sprintSlice_eq (t : List Char) (ts : List (List Char)) :
    sprintSlice (t :: ts) = joinSep [' '] (addLast [']'] (('[' :: t) :: ts)) := by
  rw [joinSep_addLast _ _ _ (by simp), joinSep_cons_head]
  rfl

theorem splitSemiCL_serializeCL :
    ∀ ts : List (List Char), ts ≠ [] → (∀ w ∈ ts, wfTokCL w) →
      splitSemiCL (serializeCL ts) = ts := by
  intro ts hne hwf
  cases ts with
  | nil => exact absurd rfl hne
  | cons t rest =>
    have hwt := hwf t (by simp)
    unfold serializeCL
    rw [sprintSlice_eq]
    have hfa : ∀ w ∈ addLast [']'] (('[' :: t) :: rest),
        w ≠ [] ∧ ∀ c ∈ w, ¬c.isWhitespace := by
      apply addLast_elems_prop (fun w => w ≠ [] ∧ ∀ c ∈ w, ¬c.isWhitespace)
      · intro w hw
        rcases List.mem_cons.mp hw with h | h
        · subst h
          refine ⟨by simp, ?_⟩
          intro c hc
          rcases List.mem_cons.mp hc with h | h
          · subst h; decide
          · exact (hwt.2 c h).1
        · have hw' := hwf w (by simp [h])
          exact ⟨hw'.1, fun c hc => (hw'.2 c hc).1⟩
      · intro w hw
        refine ⟨by simp, ?_⟩
        intro c hc
        rcases List.mem_append.mp hc with h | h
        · rcases List.mem_cons.mp hw with h' | h'
          · subst h'
            rcases List.mem_cons.mp h with h'' | h''
            · subst h''; decide
            · exact (hwt.2 c h'').1
          · exact ((hwf w (by simp [h'])).2 c h).1
        · simp at h; subst h; decide
      · exact ⟨by simp, fun c hc => by simp at hc; subst hc; decide⟩
    rw [fieldsCL_joinSep _ hfa]
    rw [joinSep_addLast _ _ _ (by simp), joinSep_cons_head]
    rw [show ('[' :: joinSep [';'] (t :: rest)) ++ [']'] =
      '[' :: (joinSep [';'] (t :: rest) ++ [']']) from rfl]
    rw [show ('[' :: (joinSep [';'] (t :: rest) ++ [']']) : List Char) =
      '[' :: joinSep [';'] (t :: rest) ++ [']'] from rfl]
    rw [trimCL_brackets _ (joinSep_ne_nil hwt.1) ?_]
    · exact splitSemiCL_joinSep _ (by simp)
        (fun w hw c hc => ((hwf w hw).2 c hc).2.1)
    · intro c hc
      rcases mem_joinSep hc with h | ⟨w, hw, hcw⟩
      · simp at h; subst h; exact ⟨by decide, by decide⟩
      · have hcw' := (hwf w hw).2 c hcw
        exact ⟨hcw'.2.2.1, hcw'.2.2.2⟩

theorem wfToken_to_CL {t : String} (h : wfToken t = true) : wfTokCL t.data := by
  unfold wfToken at h
  rw [Bool.and_eq_true] at h
  obtain ⟨h1, h2⟩ := h
  constructor
  · intro hd
    have ht : t = "" := by
      cases t
      simp_all
    rw [ht] at h1
    simp at h1
  · intro c hc
    have hall := (List.all_eq_true.mp h2) c hc
    simp only [Bool.and_eq_true, Bool.not_eq_true', decide_eq_true_eq,
      Bool.not_eq_true] at hall
    refine ⟨?_, hall.1.1.2, hall.1.2, hall.2⟩
    rw [hall.1.1.1]
    simp

theorem map_asString_map_data (ts : List String) :
    (ts.map String.data).map List.asString = ts := by
  rw [List.map_map]
  have h : (List.asString ∘ String.data) = id := by
    funext s
    cases s
    rfl
  rw [h, List.map_id]

theorem splitSemi_serializeTokens (ts : List String) (hne : ts ≠ [])
    (hwf : ∀ w ∈ ts, wfToken w = true) :
    splitSemi (serializeTokens ts) = ts := by
  unfold splitSemi serializeTokens
  rw [show (String.mk (serializeCL (ts.map String.data))).data =
    serializeCL (ts.map String.data) from rfl]
  rw [splitSemiCL_serializeCL (ts.map String.data) (by simpa using hne)
    (by
      intro w hw
      obtain ⟨s, hs, rfl⟩ := List.mem_map.mp hw
      exact wfToken_to_CL (hwf s hs))]
  exact map_asString_map_data ts

theorem serializeTokens_ne_empty (ts : List String) (hne : ts ≠ [])
    (hwf : ∀ w ∈ ts, wfToken w = true) : serializeTokens ts ≠ "" := by
  intro h
  have hrt := splitSemi_serializeTokens ts hne hwf
  rw [h] at hrt
  rw [show splitSemi "" = [""] from rfl] at hrt
  have hm : "" ∈ ts := by rw [← hrt]; simp
  have := hwf "" hm
  simp [wfToken] at this

/-!
## Lemmas: sequential appendUnseal runs and unwrapUnseals
-/

theorem appendUnseal_fresh (t : String) :
    appendUnseal (.ok none) (.ok t) none =
      ⟨some [t], none, true, some (serializeTokens [t])⟩ := rfl

theorem appendUnseal_existing (ts : List String) (t : String) (hne : ts ≠ [])
    (hwf : ∀ w ∈ ts, wfToken w = true) :
    appendUnseal (.ok (some [("wrapping_tokens", GoVal.str (serializeTokens ts))]))
      (.ok t) none =
      ⟨some (ts ++ [t]), none, true, some (serializeTokens (ts ++ [t]))⟩ := by
  have h1 : splitSemi (serializeTokens ts) = ts := splitSemi_serializeTokens ts hne hwf
  have h2 : serializeTokens ts ≠ "" := serializeTokens_ne_empty ts hne hwf
  simp [appendUnseal, lookupVal, h1, h2]

theorem runAppends_step (s t : String) (rest : List String) :
    runAppends (some s) (t :: rest) =
      match (appendUnseal (.ok (some [("wrapping_tokens", GoVal.str s)]))
          (.ok t) none).unseals,
        (appendUnseal (.ok (some [("wrapping_tokens", GoVal.str s)]))
          (.ok t) none).written, rest with
      | some l, _, [] => some l
      | some _, some w, _ :: _ => runAppends (some w) rest
      | _, _, _ => none := rfl

theorem runAppends_fresh_step (t : String) (rest : List String) :
    runAppends none (t :: rest) =
      match (appendUnseal (.ok none) (.ok t) none).unseals,
        (appendUnseal (.ok none) (.ok t) none).written, rest with
      | some l, _, [] => some l
      | some _, some w, _ :: _ => runAppends (some w) rest
      | _, _, _ => none := rfl

theorem runAppends_invariant :
    ∀ (rest pre : List String), pre ≠ [] → rest ≠ [] →
      (∀ w ∈ pre ++ rest, wfToken w = true) →
      runAppends (some (serializeTokens pre)) rest = some (pre ++ rest) := by
  intro rest
  induction rest with
  | nil => intro pre _ h _; exact absurd rfl h
  | cons t r ih =>
    intro pre hpre _ hwf
    have hwfpre : ∀ w ∈ pre, wfToken w = true := fun w hw => hwf w (by simp [hw])
    have happ := appendUnseal_existing pre t hpre hwfpre
    cases r with
    | nil => rw [runAppends_step, happ]
    | cons t2 r2 =>
      have ih' := ih (pre ++ [t]) (by simp) (by simp)
        (by
          intro w hw
          apply hwf w
          simp only [List.mem_append, List.mem_cons, List.mem_singleton] at hw ⊢
          tauto)
      rw [runAppends_step, happ]
      show runAppends (some (serializeTokens (pre ++ [t]))) (t2 :: r2) =
        some (pre ++ t :: t2 :: r2)
      rw [ih']
      simp

theorem runAppends_all (ts : List String) (hne : ts ≠ [])
    (hwf : ∀ w ∈ ts, wfToken w = true) : runAppends none ts = some ts := by
  cases ts with
  | nil => exact absurd rfl hne
  | cons t rest =>
    cases rest with
    | nil => rfl
    | cons t2 r2 =>
      have hinv := runAppends_invariant (t2 :: r2) [t] (by simp) (by simp)
        (by simpa using hwf)
      rw [runAppends_fresh_step, appendUnseal_fresh]
      show runAppends (some (serializeTokens [t])) (t2 :: r2) = some (t :: t2 :: r2)
      rw [hinv]
      rfl

theorem unwrapUnseals_all_ok :
    ∀ (ts shares : List String) (unwrap : String → Except String Data),
      ts.length = shares.length →
      (∀ p ∈ ts.zip shares, unwrap p.1 = .ok [("unseal_token", GoVal.str p.2)]) →
      unwrapUnseals unwrap ts = some (.ok shares) := by
  intro ts
  induction ts with
  | nil =>
    intro shares unwrap hlen _
    cases shares with
    | nil => rfl
    | cons s ss => simp at hlen
  | cons t ts' ih =>
    intro shares unwrap hlen hz
    cases shares with
    | nil => simp at hlen
    | cons s ss =>
      have ht := hz (t, s) (by simp)
      have ih' := ih ss unwrap (by simpa using hlen) (fun p hp => hz p (by simp [hp]))
      simp [unwrapUnseals, ht, ih', lookupVal]

/-!
## Claims C3, C8, C4, C10
-/

/-- C3: starting from an empty bucket, N sequential (non-concurrent)
`appendUnseal` calls for one ChangeID - each reading what the previous call
wrote - return after the k-th call the full updated list of the first k
tokens in submission order (first conjunct), the Nth call returns all N
tokens in submission order (second conjunct), and `unwrapUnseals` on that
list, with every unwrap succeeding, returns the N shares in the same order
(third conjunct). Tokens are required to be well-formed (`wfToken`: nonempty,
no whitespace, `;`, `[`, `]`), which holds for the opaque handles the
external service issues; the bucket serialization is lossy outside that
set. -/
theorem claim_C3_appends_roundtrip :
    ∀ (ts shares : List String) (unwrap : String → Except String Data),
      ts ≠ [] → (∀ w ∈ ts, wfToken w = true) → ts.length = shares.length →
      (∀ p ∈ ts.zip shares, unwrap p.1 = .ok [("unseal_token", GoVal.str p.2)]) →
      (∀ k, 1 ≤ k → k ≤ ts.length →
        runAppends none (ts.take k) = some (ts.take k)) ∧
      runAppends none ts = some ts ∧
      unwrapUnseals unwrap ts = some (.ok shares) := by
  intro ts shares unwrap hne hwf hlen hz
  refine ⟨?_, runAppends_all ts hne hwf, unwrapUnseals_all_ok ts shares unwrap hlen hz⟩
  intro k hk1 hk2
  apply runAppends_all
  · intro h
    rcases List.take_eq_nil_iff.mp h with h' | h'
    · omega
    · exact hne h'
  · intro w hw
    exact hwf w (List.take_subset _ _ hw)

/-- Witness for C3: two sequential appends starting from an empty bucket,
then an all-successful unwrap returning the shares in order. -/
theorem claim_C3_witness :
    runAppends none ["tok1", "tok2"] = some ["tok1", "tok2"] ∧
    unwrapUnseals
      (fun t => if t = "tok1" then .ok [("unseal_token", GoVal.str "s1")]
        else .ok [("unseal_token", GoVal.str "s2")]) ["tok1", "tok2"] =
      some (.ok ["s1", "s2"]) := by
  have h := claim_C3_appends_roundtrip ["tok1", "tok2"] ["s1", "s2"]
    (fun t => if t = "tok1" then .ok [("unseal_token", GoVal.str "s1")]
      else .ok [("unseal_token", GoVal.str "s2")])
    (by decide) (by decide) (by decide) (by decide)
  exact ⟨h.2.1, h.2.2⟩

/-- C8: `appendUnseal` reads the bucket record; when the record is present
and the `wrapping_tokens` field holds a nonempty string, that string is split
on `;` into the existing token list and the new wrapped token is appended
(second conjunct). When the record exists but the field is absent, holds a
non-string value, or is the empty string, the call fails with the
CorruptState error and neither wraps (`wrapped = false`) nor writes
(`written = none`) anything (first conjunct). -/
theorem claim_C8_corrupt_bucket :
    (∀ (d : Data) (wrapRes : Except String String) (writeErr : Option String),
      (lookupVal d "wrapping_tokens" = none ∨
        (∃ n, lookupVal d "wrapping_tokens" = some (.other n)) ∨
        lookupVal d "wrapping_tokens" = some (.str "")) →
      appendUnseal (.ok (some d)) wrapRes writeErr =
        ⟨none, some "Could not find key \x27wrapping_tokens\x27 in cubbyhole",
          false, none⟩) ∧
    (∀ (d : Data) (raw t : String) (writeErr : Option String),
      lookupVal d "wrapping_tokens" = some (.str raw) → raw ≠ "" →
      appendUnseal (.ok (some d)) (.ok t) writeErr =
        ⟨some (splitSemi raw ++ [t]), writeErr, true,
          some (serializeTokens (splitSemi raw ++ [t]))⟩) := by
  constructor
  · intro d wrapRes writeErr h
    rcases h with h | ⟨n, h⟩ | h <;> simp [appendUnseal, h]
  · intro d raw t writeErr h hne
    simp [appendUnseal, h, hne]

/-- Witness for C8: a bucket whose field holds `t1;t2` is split and appended
to; a bucket with an empty field fails with the CorruptState error without
wrapping or writing. -/
theorem claim_C8_witness :
    appendUnseal (.ok (some [("wrapping_tokens", GoVal.str "t1;t2")]))
      (.ok "t3") none =
      ⟨some ["t1", "t2", "t3"], none, true,
        some (serializeTokens ["t1", "t2", "t3"])⟩ ∧
    appendUnseal (.ok (some [("wrapping_tokens", GoVal.str "")]))
      (.ok "t3") none =
      ⟨none, some "Could not find key \x27wrapping_tokens\x27 in cubbyhole",
        false, none⟩ :=
  ⟨claim_C8_corrupt_bucket.2 [("wrapping_tokens", GoVal.str "t1;t2")] "t1;t2"
     "t3" none rfl (by decide),
   claim_C8_corrupt_bucket.1 [("wrapping_tokens", GoVal.str "")] (.ok "t3") none
     (Or.inr (Or.inr rfl))⟩

/-- C4: `unwrapUnseals` processes tokens in order; at the first token whose
unwrap fails, it aborts immediately and returns that error with no shares -
whatever the remaining tokens are (no hypothesis at all is placed on `l2`),
and whatever was already unwrapped is discarded. The result is strictly
all-or-nothing: an error outcome carries no share list. -/
theorem claim_C4_all_or_nothing :
    ∀ (unwrap : String → Except String Data) (l1 l2 : List String) (t e : String),
      (∀ t' ∈ l1, ∃ d s, unwrap t' = .ok d ∧
        lookupVal d "unseal_token" = some (.str s)) →
      unwrap t = .error e →
      unwrapUnseals unwrap (l1 ++ t :: l2) = some (.error e) := by
  intro unwrap l1
  induction l1 with
  | nil =>
    intro l2 t e _ ht
    simp [unwrapUnseals, ht]
  | cons t' l1' ih =>
    intro l2 t e h ht
    obtain ⟨d, s, hd, hs⟩ := h t' (by simp)
    have ih' := ih l2 t e (fun x hx => h x (by simp [hx])) ht
    simp [unwrapUnseals, hd, hs, ih']

/-- Witness for C4: the second of three tokens fails to unwrap; the call
returns that error even though the third token is valid, and no shares. -/
theorem claim_C4_witness :
    unwrapUnseals
      (fun t => if t = "b" then .error "wrapping token is not valid or does not exist"
        else .ok [("unseal_token", GoVal.str "s")]) ["a", "b", "c"] =
      some (.error "wrapping token is not valid or does not exist") :=
  claim_C4_all_or_nothing
    (fun t => if t = "b" then .error "wrapping token is not valid or does not exist"
      else .ok [("unseal_token", GoVal.str "s")]) ["a"] ["c"] "b"
    "wrapping token is not valid or does not exist"
    (by
      intro t' ht'
      refine ⟨[("unseal_token", GoVal.str "s")], "s", ?_, rfl⟩
      simp at ht'
      subst ht'
      rfl)
    rfl

/-- C10: `unwrapUnseals` returns a value (shares or an error) whenever every
successfully unwrapped payload maps `unseal_token` to a string (first
conjunct); but when some unwrapped payload carries a non-string value under
`unseal_token`, the unchecked type assertion `unseal.(string)` at
request.go line 222 is a runtime panic, modelled as the `none` result
(second conjunct, at a concrete input). -/
theorem claim_C10_unchecked_assertion :
    (∀ (unwrap : String → Except String Data) (ts : List String),
      (∀ t ∈ ts, ∀ d, unwrap t = .ok d →
        ∀ v, lookupVal d "unseal_token" = some v → ∃ s, v = .str s) →
      (unwrapUnseals unwrap ts).isSome) ∧
    unwrapUnseals (fun _ => .ok [("unseal_token", GoVal.other 0)]) ["tok"] =
      none := by
  constructor
  · intro unwrap ts
    induction ts with
    | nil => intro _; rfl
    | cons t ts' ih =>
      intro h
      have ih' := ih (fun x hx => h x (by simp [hx]))
      cases hu : unwrap t with
      | error e => simp [unwrapUnseals, hu]
      | ok d =>
        cases hl : lookupVal d "unseal_token" with
        | none => simp [unwrapUnseals, hu, hl]
        | some v =>
          obtain ⟨s, rfl⟩ := h t (by simp) d hu v hl
          cases hrec : unwrapUnseals unwrap ts' with
          | none => rw [hrec] at ih'; simp at ih'
          | some res =>
            cases res with
            | error e => simp [unwrapUnseals, hu, hl, hrec]
            | ok ss => simp [unwrapUnseals, hu, hl, hrec]
  · rfl

/-- Witness for C10: with a payload mapping `unseal_token` to a string, the
call returns a value. -/
theorem claim_C10_witness :
    (unwrapUnseals (fun _ => .ok [("unseal_token", GoVal.str "s")])
      ["tok"]).isSome := by
  apply claim_C10_unchecked_assertion.1
  intro t _ d hd v hv
  refine ⟨"s", ?_⟩
  have hd' : d = [("unseal_token", GoVal.str "s")] := by
    injection hd with h
    exact h.symm
  subst hd'
  have : some (GoVal.str "s") = some v := by rw [← hv]; rfl
  injection this with h
  exact h.symm

end Goldfish
